import Mathlib

/-!
Verification of the MIDI-encoding core of `src/app.py` (MusicAbility).

The Python source is shallowly embedded below.  Conventions used throughout:

* Python `int` is `Int` (arbitrary precision in both languages); byte values
  are `Nat` in `[0, 256)`.
* Python `int(x)` on a number truncates toward zero; on a fraction
  `num / den` this is `Int.tdiv num den` (T-division).
* A Python `float` is exactly a dyadic rational `mant / 2^exp`
  (every finite IEEE-754 double has this form), embedded as `PyFloat`.
  Arithmetic performed on them in the source (`float * 480`) is modelled
  exactly; the spec itself describes the beat fields as real numbers.
* Nonnegative bit manipulation: `v & 0x7F = v % 128`, `v >> 7 = v / 128`
  and, for `a < 128`, `a | 0x80 = a + 128`.  On negative Python ints
  (two's complement semantics) `v & 0x7F = v.emod 128` and
  `v >> 7 = v.ediv 128` (arithmetic shift = floor division).
* A `while` loop is embedded as a fuel-indexed structural recursion whose
  fuel provably dominates the number of iterations; fuel-irrelevance lemmas
  (`liftUp_eq`, `pushDown_eq`, …) recover the literal loop equations.
* Code paths that raise (`ValueError` …) or do not terminate return `none`.
-/

/-! ### Pitch resolver (`pitch_to_midi`, src/app.py lines 158–176) -/

/-- Source constant `PITCH_MIN = 48` (C3). -/
def PITCH_MIN : Int := 48

/-- Source constant `PITCH_MAX = 72` (C5). -/
def PITCH_MAX : Int := 72

/-- Semitone table `_NOTE_MAP = {"C": 0, "D": 2, "E": 4, "F": 5, "G": 7, "A": 9, "B": 11}`;
`none` for a letter outside A–G (the regex `[A-G]` would not have matched). -/
def _NOTE_MAP (c : Char) : Option Int :=
  match c with
  | 'C' => some 0
  | 'D' => some 2
  | 'E' => some 4
  | 'F' => some 5
  | 'G' => some 7
  | 'A' => some 9
  | 'B' => some 11
  | _ => none

/-- Parse one-or-more decimal digits (`\d+`) into their value. -/
def parseDigits (cs : List Char) : Option Nat :=
  if cs.isEmpty then none
  else if cs.all Char.isDigit then
    some (cs.foldl (fun a c => a * 10 + (c.toNat - 48)) 0)
  else none

/-- Parse a signed integer (`-?\d+`), the octave group of the regex. -/
def parseOctave (cs : List Char) : Option Int :=
  match cs with
  | '-' :: rest => (parseDigits rest).map (fun n => -(n : Int))
  | _ => (parseDigits cs).map (fun n => (n : Int))

/-- Regex match `re.fullmatch(r"([A-G])([#b]?)(-?\d+)", s)`: returns the letter's
semitone (`_NOTE_MAP[note]`), the accidental adjustment
(`_ACCID_MAP.get(acc, 0)`, so `#` = 1, `b` = -1, absent = 0) and the octave. -/
def parsePitch (cs : List Char) : Option (Int × Int × Int) :=
  match cs with
  | [] => none
  | c :: rest =>
    match _NOTE_MAP c with
    | none => none
    | some base =>
      match rest with
      | '#' :: rest2 => (parseOctave rest2).map (fun o => (base, 1, o))
      | 'b' :: rest2 => (parseOctave rest2).map (fun o => (base, -1, o))
      | _ => (parseOctave rest).map (fun o => (base, 0, o))

/-- Python `str.strip()` (whitespace from both ends). -/
def pyStrip (cs : List Char) : List Char :=
  ((cs.dropWhile Char.isWhitespace).reverse.dropWhile Char.isWhitespace).reverse

/-- Loop `while midi < PITCH_MIN: midi += 12`, with an explicit iteration bound:
each pass adds 12, so `(PITCH_MIN - midi).toNat` passes more than suffice. -/
def liftUpAux : Nat → Int → Int
  | 0, m => m
  | k + 1, m => if m < PITCH_MIN then liftUpAux k (m + 12) else m

/-- The first `while` loop of `pitch_to_midi`. -/
def liftUp (m : Int) : Int := liftUpAux (PITCH_MIN - m).toNat m

/-- Loop `while midi > PITCH_MAX: midi -= 12`, fueled like `liftUpAux`. -/
def pushDownAux : Nat → Int → Int
  | 0, m => m
  | k + 1, m => if m > PITCH_MAX then pushDownAux k (m - 12) else m

/-- The second `while` loop of `pitch_to_midi`. -/
def pushDown (m : Int) : Int := pushDownAux (m - PITCH_MAX).toNat m

/-- Function `pitch_to_midi` (src/app.py lines 162–176).  `none` models the raised
`ValueError` for a string the regex rejects. -/
def pitch_to_midi (pitch_str : String) : Option Int :=
  match parsePitch (pyStrip pitch_str.data) with
  | none => none
  | some (base, accAdj, octave) =>
    some (pushDown (liftUp ((octave + 1) * 12 + base + accAdj)))

/-! Fuel-irrelevance: the fueled loops satisfy the literal `while` equations. -/

theorem liftUpAux_congr : ∀ (k k' : Nat) (m : Int),
    PITCH_MIN - m ≤ (k : Int) → PITCH_MIN - m ≤ (k' : Int) →
    liftUpAux k m = liftUpAux k' m := by
  intro k
  induction k with
  | zero =>
    intro k' m h h'
    cases k' with
    | zero => rfl
    | succ j =>
      simp only [liftUpAux, PITCH_MIN] at *
      rw [if_neg (by omega)]
  | succ j ih =>
    intro k' m h h'
    cases k' with
    | zero =>
      simp only [liftUpAux, PITCH_MIN] at *
      rw [if_neg (by omega)]
    | succ j' =>
      simp only [liftUpAux]
      by_cases hm : m < PITCH_MIN
      · rw [if_pos hm, if_pos hm]
        exact ih j' (m + 12) (by simp only [PITCH_MIN] at *; omega)
          (by simp only [PITCH_MIN] at *; omega)
      · rw [if_neg hm, if_neg hm]

/-- Function `liftUp` satisfies the loop equation of `while midi < PITCH_MIN: midi += 12`. -/
theorem liftUp_eq (m : Int) :
    liftUp m = if m < PITCH_MIN then liftUp (m + 12) else m := by
  by_cases hm : m < PITCH_MIN
  · rw [if_pos hm]
    unfold liftUp
    have h1 : (PITCH_MIN - m).toNat = ((PITCH_MIN - m).toNat - 1) + 1 := by
      simp [PITCH_MIN] at hm ⊢; omega
    rw [h1]
    simp only [liftUpAux]
    rw [if_pos hm]
    exact liftUpAux_congr _ _ _ (by simp only [PITCH_MIN] at *; omega)
      (by simp only [PITCH_MIN] at *; omega)
  · rw [if_neg hm]
    unfold liftUp
    have h0 : (PITCH_MIN - m).toNat = 0 := by simp only [PITCH_MIN] at *; omega
    rw [h0]
    rfl

theorem pushDownAux_congr : ∀ (k k' : Nat) (m : Int),
    m - PITCH_MAX ≤ (k : Int) → m - PITCH_MAX ≤ (k' : Int) →
    pushDownAux k m = pushDownAux k' m := by
  intro k
  induction k with
  | zero =>
    intro k' m h h'
    cases k' with
    | zero => rfl
    | succ j =>
      simp only [pushDownAux, PITCH_MAX] at *
      rw [if_neg (by omega)]
  | succ j ih =>
    intro k' m h h'
    cases k' with
    | zero =>
      simp only [pushDownAux, PITCH_MAX] at *
      rw [if_neg (by omega)]
    | succ j' =>
      simp only [pushDownAux]
      by_cases hm : m > PITCH_MAX
      · rw [if_pos hm, if_pos hm]
        exact ih j' (m - 12) (by simp only [PITCH_MAX] at *; omega)
          (by simp only [PITCH_MAX] at *; omega)
      · rw [if_neg hm, if_neg hm]

/-- Function `pushDown` satisfies the loop equation of `while midi > PITCH_MAX: midi -= 12`. -/
theorem pushDown_eq (m : Int) :
    pushDown m = if m > PITCH_MAX then pushDown (m - 12) else m := by
  by_cases hm : m > PITCH_MAX
  · rw [if_pos hm]
    unfold pushDown
    have h1 : (m - PITCH_MAX).toNat = ((m - PITCH_MAX).toNat - 1) + 1 := by
      simp [PITCH_MAX] at hm ⊢; omega
    rw [h1]
    simp only [pushDownAux]
    rw [if_pos hm]
    exact pushDownAux_congr _ _ _ (by simp only [PITCH_MAX] at *; omega)
      (by simp only [PITCH_MAX] at *; omega)
  · rw [if_neg hm]
    unfold pushDown
    have h0 : (m - PITCH_MAX).toNat = 0 := by simp only [PITCH_MAX] at *; omega
    rw [h0]
    rfl

/-! Range lemmas for the two transposition loops. -/

theorem liftUpAux_lower : ∀ (k : Nat) (m : Int),
    PITCH_MIN - m ≤ (k : Int) → PITCH_MIN ≤ liftUpAux k m := by
  intro k
  induction k with
  | zero =>
    intro m h
    simp only [liftUpAux, PITCH_MIN] at *
    omega
  | succ j ih =>
    intro m h
    simp only [liftUpAux]
    by_cases hm : m < PITCH_MIN
    · rw [if_pos hm]
      exact ih (m + 12) (by simp only [PITCH_MIN] at *; omega)
    · rw [if_neg hm]
      omega

theorem liftUp_lower (m : Int) : PITCH_MIN ≤ liftUp m :=
  liftUpAux_lower _ m (Int.self_le_toNat _)

theorem pushDownAux_upper : ∀ (k : Nat) (m : Int),
    m - PITCH_MAX ≤ (k : Int) → pushDownAux k m ≤ PITCH_MAX := by
  intro k
  induction k with
  | zero =>
    intro m h
    simp only [pushDownAux, PITCH_MAX] at *
    omega
  | succ j ih =>
    intro m h
    simp only [pushDownAux]
    by_cases hm : m > PITCH_MAX
    · rw [if_pos hm]
      exact ih (m - 12) (by simp only [PITCH_MAX] at *; omega)
    · rw [if_neg hm]
      omega

theorem pushDown_upper (m : Int) : pushDown m ≤ PITCH_MAX :=
  pushDownAux_upper _ m (Int.self_le_toNat _)

theorem pushDownAux_lower : ∀ (k : Nat) (m : Int),
    PITCH_MIN ≤ m → PITCH_MIN ≤ pushDownAux k m := by
  intro k
  induction k with
  | zero => intro m h; simpa [pushDownAux] using h
  | succ j ih =>
    intro m h
    simp only [pushDownAux]
    by_cases hm : m > PITCH_MAX
    · rw [if_pos hm]
      exact ih (m - 12) (by simp [PITCH_MIN, PITCH_MAX] at *; omega)
    · rw [if_neg hm]
      exact h

theorem pushDown_lower (m : Int) (h : PITCH_MIN ≤ m) : PITCH_MIN ≤ pushDown m :=
  pushDownAux_lower _ m h

/-- Claim C1: every pitch string accepted by `pitch_to_midi` yields a MIDI
number in the closed range [48, 72]; the transposition loops terminate for
every accepted input (the embedding is a total function, and the fueled loops
satisfy the literal loop equations `liftUp_eq` / `pushDown_eq`). -/
theorem spec_c1 (s : String) (m : Int) (h : pitch_to_midi s = some m) :
    48 ≤ m ∧ m ≤ 72 := by
  unfold pitch_to_midi at h
  cases hp : parsePitch (pyStrip s.data) with
  | none => rw [hp] at h; exact absurd h (by simp)
  | some v =>
    rw [hp] at h
    obtain ⟨base, accAdj, octave⟩ := v
    simp only [Option.some.injEq] at h
    subst h
    refine ⟨?_, ?_⟩
    · have := pushDown_lower _ (liftUp_lower ((octave + 1) * 12 + base + accAdj))
      simpa [PITCH_MIN] using this
    · have := pushDown_upper (liftUp ((octave + 1) * 12 + base + accAdj))
      simpa [PITCH_MAX] using this

/-- Witness for C1 at the concrete accepted input "C4". -/
theorem spec_c1_witness : (48 : Int) ≤ 60 ∧ (60 : Int) ≤ 72 :=
  spec_c1 "C4" 60 (by decide)

/-! ### Variable-length quantity encoder (`_encode_varint`, src/app.py lines 179–186)

Python:
  buf = [value & 0x7F]; value >>= 7
  while value: buf.append((value & 0x7F) | 0x80); value >>= 7
  return bytes(reversed(buf))

For a nonnegative `value`, `value & 0x7F = value % 128`, `value >>= 7` is
`value / 128`, and `(value % 128) | 0x80 = value % 128 + 128`.  The `while`
loop is fueled; `value` itself dominates the iteration count since the value
is at least halved (divided by 128) each pass.
-/

def _encode_varint_loopAux : Nat → Nat → List Nat → List Nat
  | _, 0, buf => buf
  | 0, _, buf => buf
  | k + 1, value, buf => _encode_varint_loopAux k (value / 128) (buf ++ [value % 128 + 128])

/-- The continuation bytes produced by the `while` loop, least significant first. -/
def _encode_varint_high (value : Nat) : List Nat :=
  _encode_varint_loopAux value value []

/-- Function `_encode_varint` (src/app.py lines 179–186), on nonnegative input. -/
def _encode_varint (value : Nat) : List Nat :=
  (_encode_varint_loopAux (value / 128) (value / 128) [value % 128]).reverse

/-- The standard MIDI variable-length-quantity decoder: consume bytes most
significant first, 7 payload bits each, stopping at the first byte whose
continuation bit (0x80) is clear; `none` if the bytes are not exactly one
well-terminated quantity. -/
def vlqDecodeAux : List Nat → Nat → Option Nat
  | [], _ => none
  | b :: rest, acc =>
    if b < 128 then (if rest.isEmpty then some (acc * 128 + b % 128) else none)
    else vlqDecodeAux rest (acc * 128 + b % 128)

def vlqDecode (bs : List Nat) : Option Nat := vlqDecodeAux bs 0

/-! The fueled loop is insensitive to the exact fuel once it dominates the
value, and appends to its accumulator. -/

theorem _encode_varint_loopAux_append (v : Nat) : ∀ (k : Nat) (buf : List Nat),
    v ≤ k → _encode_varint_loopAux k v buf = buf ++ _encode_varint_high v := by
  induction v using Nat.strong_induction_on with
  | _ v ih =>
    intro k buf hk
    match v, k with
    | 0, k => cases k <;> simp [_encode_varint_loopAux, _encode_varint_high]
    | w + 1, 0 => omega
    | w + 1, k + 1 =>
      have hlt : (w + 1) / 128 < w + 1 := Nat.div_lt_self (by omega) (by omega)
      have hk1 : (w + 1) / 128 ≤ k := by omega
      have hk2 : (w + 1) / 128 ≤ w := by omega
      show _encode_varint_loopAux k ((w + 1) / 128) (buf ++ [(w + 1) % 128 + 128])
          = buf ++ _encode_varint_high (w + 1)
      rw [ih _ hlt _ _ hk1]
      have hrhs : _encode_varint_high (w + 1)
          = [(w + 1) % 128 + 128] ++ _encode_varint_high ((w + 1) / 128) := by
        show _encode_varint_loopAux (w + 1) (w + 1) [] = _
        show _encode_varint_loopAux w ((w + 1) / 128) ([] ++ [(w + 1) % 128 + 128]) = _
        rw [ih _ hlt _ _ hk2]
        simp
      rw [hrhs]
      simp

/-- The loop equation for the continuation-byte list. -/
theorem _encode_varint_high_eq (v : Nat) :
    _encode_varint_high v =
      if v = 0 then [] else (v % 128 + 128) :: _encode_varint_high (v / 128) := by
  match v with
  | 0 => simp [_encode_varint_high, _encode_varint_loopAux]
  | w + 1 =>
    rw [if_neg (by omega)]
    show _encode_varint_loopAux (w + 1) (w + 1) [] = _
    show _encode_varint_loopAux w ((w + 1) / 128) ([] ++ [(w + 1) % 128 + 128]) = _
    rw [_encode_varint_loopAux_append _ _ _ (by
      have : (w + 1) / 128 < w + 1 := Nat.div_lt_self (by omega) (by omega)
      omega)]
    simp

/-- The encoder in closed form: reversed continuation bytes, then the low byte. -/
theorem _encode_varint_eq (n : Nat) :
    _encode_varint n = (_encode_varint_high (n / 128)).reverse ++ [n % 128] := by
  unfold _encode_varint
  rw [_encode_varint_loopAux_append _ _ _ (Nat.le_refl _)]
  simp

/-- Every continuation byte carries the 0x80 bit and is a byte value. -/
theorem _encode_varint_high_mem (v : Nat) :
    ∀ b ∈ _encode_varint_high v, 128 ≤ b ∧ b < 256 := by
  induction v using Nat.strong_induction_on with
  | _ v ih =>
    intro b hb
    rw [_encode_varint_high_eq] at hb
    by_cases hv : v = 0
    · simp [hv] at hb
    · rw [if_neg hv] at hb
      rcases List.mem_cons.mp hb with h | h
      · subst h
        have := Nat.mod_lt v (y := 128) (by omega)
        omega
      · exact ih (v / 128) (Nat.div_lt_self (by omega) (by omega)) b h

/-- The most significant continuation byte has nonzero payload bits (hence
the encoding carries no superfluous leading continuation byte). -/
theorem _encode_varint_high_last (v : Nat) (hv : v ≠ 0) :
    ∃ b, (_encode_varint_high v).getLast? = some b ∧ b % 128 ≠ 0 := by
  induction v using Nat.strong_induction_on with
  | _ v ih =>
    rw [_encode_varint_high_eq, if_neg hv]
    by_cases h128 : v / 128 = 0
    · refine ⟨v % 128 + 128, ?_, ?_⟩
      · rw [_encode_varint_high_eq, if_pos h128]
        rfl
      · omega
    · obtain ⟨b, hb, hbp⟩ := ih (v / 128) (Nat.div_lt_self (by omega) (by omega)) h128
      refine ⟨b, ?_, hbp⟩
      rw [List.getLast?_cons]
      rw [_encode_varint_high_eq, if_neg h128] at hb ⊢
      simp_all

/-- Decoding accumulates the reversed continuation bytes of `v` into the
running value. -/
theorem vlqDecodeAux_high (v : Nat) : ∀ (acc : Nat) (l : List Nat),
    vlqDecodeAux ((_encode_varint_high v).reverse ++ l) acc
      = vlqDecodeAux l (acc * 128 ^ (_encode_varint_high v).length + v) := by
  induction v using Nat.strong_induction_on with
  | _ v ih =>
    intro acc l
    by_cases hv : v = 0
    · subst hv
      rw [_encode_varint_high_eq]
      simp
    · rw [_encode_varint_high_eq, if_neg hv]
      have hlt : v / 128 < v := Nat.div_lt_self (by omega) (by omega)
      rw [List.reverse_cons, List.append_assoc]
      rw [ih _ hlt]
      have hb : ¬ (v % 128 + 128 < 128) := by omega
      show vlqDecodeAux ((v % 128 + 128) :: l) _ = _
      rw [vlqDecodeAux, if_neg hb]
      congr 1
      have hmod : (v % 128 + 128) % 128 = v % 128 := by omega
      rw [hmod, List.length_cons, pow_succ]
      have hv128 : v / 128 * 128 + v % 128 = v := by omega
      calc (acc * 128 ^ (_encode_varint_high (v / 128)).length + v / 128) * 128 + v % 128
          = acc * (128 ^ (_encode_varint_high (v / 128)).length * 128)
            + (v / 128 * 128 + v % 128) := by ring
        _ = acc * (128 ^ (_encode_varint_high (v / 128)).length * 128) + v := by
            rw [hv128]

/-- Round-trip: the standard decoder recovers the encoded value. -/
theorem vlqDecode_encode (n : Nat) : vlqDecode (_encode_varint n) = some n := by
  rw [_encode_varint_eq]
  unfold vlqDecode
  rw [vlqDecodeAux_high]
  simp only [Nat.zero_mul, Nat.zero_add]
  have hb : n % 128 < 128 := Nat.mod_lt _ (by omega)
  rw [vlqDecodeAux, if_pos hb]
  rw [if_pos (show ([] : List Nat).isEmpty = true from rfl)]
  congr 1
  omega

/-- Claim C2: `_encode_varint` produces the minimal standard MIDI
variable-length quantity: for every `n < 2^28` the standard decoder recovers
`n`; the encoding of 0 is the single byte `0x00`, 127 encodes in one byte,
128 in two; every byte but the last carries the continuation bit 0x80 and is
a valid byte value, the last byte's continuation bit is clear, and for
`n ≠ 0` the leading byte has nonzero payload bits (no superfluous leading
continuation byte). -/
theorem spec_c2 (n : Nat) (h : n < 2 ^ 28) :
    vlqDecode (_encode_varint n) = some n ∧
    _encode_varint 0 = [0] ∧
    (_encode_varint 127).length = 1 ∧
    (_encode_varint 128).length = 2 ∧
    (∀ b ∈ (_encode_varint n).dropLast, 128 ≤ b ∧ b < 256) ∧
    (∀ b, (_encode_varint n).getLast? = some b → b < 128) ∧
    (n ≠ 0 → (_encode_varint n).headD 0 % 128 ≠ 0) := by
  refine ⟨vlqDecode_encode n, by decide, by decide, by decide, ?_, ?_, ?_⟩
  · intro b hb
    rw [_encode_varint_eq, List.dropLast_concat] at hb
    exact _encode_varint_high_mem _ b (List.mem_reverse.mp hb)
  · intro b hb
    rw [_encode_varint_eq, List.getLast?_concat] at hb
    have : b = n % 128 := by injection hb; omega
    subst this
    exact Nat.mod_lt _ (by omega)
  · intro hn
    rw [_encode_varint_eq]
    by_cases h128 : n / 128 = 0
    · rw [_encode_varint_high_eq, if_pos h128]
      simp only [List.reverse_nil, List.nil_append, List.headD_cons]
      omega
    · obtain ⟨b, hb, hbp⟩ := _encode_varint_high_last (n / 128) h128
      have hhead : (_encode_varint_high (n / 128)).reverse.head? = some b := by
        rw [List.head?_reverse]
        exact hb
      cases hrev : (_encode_varint_high (n / 128)).reverse with
      | nil =>
        rw [hrev] at hhead
        exact absurd hhead (by simp)
      | cons x xs =>
        rw [hrev] at hhead
        simp only [List.head?_cons, Option.some.injEq] at hhead
        rw [hhead]
        exact hbp

/-- Witness for C2 at the concrete input 128. -/
theorem spec_c2_witness :
    vlqDecode (_encode_varint 128) = some 128 ∧
    _encode_varint 0 = [0] ∧
    (_encode_varint 127).length = 1 ∧
    (_encode_varint 128).length = 2 ∧
    (∀ b ∈ (_encode_varint 128).dropLast, 128 ≤ b ∧ b < 256) ∧
    (∀ b, (_encode_varint 128).getLast? = some b → b < 128) ∧
    (128 ≠ 0 → (_encode_varint 128).headD 0 % 128 ≠ 0) :=
  spec_c2 128 (by decide)

/-! ### `_encode_varint` on arbitrary Python ints (termination analysis)

Python ints are signed and arbitrary precision.  On a negative `value`,
`value & 0x7F` is `value.emod 128` (two's complement) and `value >>= 7` is
the arithmetic shift `value.ediv 128`; in Lean 4, `/` and `%` on `Int` are
exactly `ediv`/`emod`.  The loop `while value:` is modelled with explicit
fuel returning `none` when the fuel runs out, so non-termination is
`∀ fuel, ... = none`. -/

def _encode_varint_loopFuel : Nat → Int → List Int → Option (List Int)
  | 0, value, buf => if value = 0 then some buf else none
  | fuel + 1, value, buf =>
    if value = 0 then some buf
    else _encode_varint_loopFuel fuel (value / 128) (buf ++ [value % 128 + 128])

/-- Function `_encode_varint` on an arbitrary (possibly negative) int, fueled. -/
def _encode_varint_fuel (fuel : Nat) (value : Int) : Option (List Int) :=
  (_encode_varint_loopFuel fuel (value / 128) [value % 128]).map List.reverse

/-! ### Musical document, scheduler and MIDI encoder (src/app.py lines 195–238) -/

/-- A Python float: exactly the dyadic rational `mant / 2^exp` (every finite
IEEE-754 double has this form). -/
structure PyFloat where
  mant : Int
  exp : Nat
deriving DecidableEq

/-- Python `int(x * tpb)` for the float `x`: the product is the exact rational
`x.mant * tpb / 2^x.exp` and Python `int()` truncates toward zero, which is
`Int.tdiv` of numerator by denominator. -/
def pyIntMul (x : PyFloat) (tpb : Int) : Int := Int.tdiv (x.mant * tpb) (2 ^ x.exp)

/-- A melody entry: `{"pitch": …, "start_beat": …, "duration_beats": …,
"velocity": …}`; `velocity` is `none` when the key is absent
(`note.get("velocity", 80)` then defaults to 80). -/
structure NoteEvent where
  pitch : String
  start_beat : PyFloat
  duration_beats : PyFloat
  velocity : Option Int
deriving DecidableEq

/-- The scheduled tuple `(tick_absoluto, prioridad, status, p1, p2)`. -/
structure MidiEvent where
  tick : Int
  prio : Nat
  status : Nat
  data1 : Int
  data2 : Int
deriving DecidableEq

/-- The `tempo_bpm` entry of the parsed JSON document: absent, a number, or
a value `int()` cannot convert (on which `int()` raises `ValueError`). -/
inductive TempoField where
  | absent
  | num (n : Int)
  | invalid
deriving DecidableEq

/-- The musical document fields consumed by `build_midi` (the other required
keys — title, key, length_bars, time_signature — do not affect encoding). -/
structure MusicalDocument where
  tempo_bpm : TempoField
  melody : List NoteEvent
deriving DecidableEq

/-- Python `int(music_json.get("tempo_bpm", 90))`: 90 when the key is missing,
`none` (raised `ValueError`) when the value is not convertible. -/
def tempoInt : TempoField → Option Int
  | TempoField.absent => some 90
  | TempoField.num n => some n
  | TempoField.invalid => none

/-- Line 201, `bpm = max(40, min(200, int(music_json.get("tempo_bpm", 90))))`
(src/app.py line 201). -/
def clamped_bpm (t : TempoField) : Option Int :=
  (tempoInt t).map (fun n => max 40 (min 200 n))

/-- Python `sorted(melody, key=lambda n: float(n["start_beat"]))`: comparison of the
dyadic keys by cross multiplication (denominators `2^exp` are positive).
Python's sort is stable, as is `List.insertionSort`. -/
def noteLe (a b : NoteEvent) : Prop :=
  a.start_beat.mant * 2 ^ b.start_beat.exp ≤ b.start_beat.mant * 2 ^ a.start_beat.exp

instance : DecidableRel noteLe := fun a b =>
  inferInstanceAs (Decidable (a.start_beat.mant * 2 ^ b.start_beat.exp
    ≤ b.start_beat.mant * 2 ^ a.start_beat.exp))

/-- Python `events.sort(key=lambda e: (e[0], e[1]))`: lexicographic by
(absolute tick, priority). -/
def eventLe (e f : MidiEvent) : Prop :=
  e.tick < f.tick ∨ (e.tick = f.tick ∧ e.prio ≤ f.prio)

instance : DecidableRel eventLe := fun e f =>
  inferInstanceAs (Decidable (e.tick < f.tick ∨ (e.tick = f.tick ∧ e.prio ≤ f.prio)))

instance : IsTotal MidiEvent eventLe :=
  ⟨fun e f => by unfold eventLe; omega⟩

instance : IsTrans MidiEvent eventLe :=
  ⟨fun e f g h1 h2 => by unfold eventLe at *; omega⟩

instance : IsTotal NoteEvent noteLe :=
  ⟨fun a b => Int.le_total _ _⟩

instance : IsTrans NoteEvent noteLe where
  trans a b c h1 h2 := by
    unfold noteLe at *
    have hb : (0 : Int) < 2 ^ b.start_beat.exp := by positivity
    have h1' := mul_le_mul_of_nonneg_right h1 (le_of_lt (show (0 : Int) < 2 ^ c.start_beat.exp by positivity))
    have h2' := mul_le_mul_of_nonneg_right h2 (le_of_lt (show (0 : Int) < 2 ^ a.start_beat.exp by positivity))
    have hchain : a.start_beat.mant * 2 ^ c.start_beat.exp * 2 ^ b.start_beat.exp
        ≤ c.start_beat.mant * 2 ^ a.start_beat.exp * 2 ^ b.start_beat.exp := by
      nlinarith
    exact le_of_mul_le_mul_right hchain hb

/-- Source constant `tpb = 480` (src/app.py line 200). -/
def tpb : Int := 480

/-- The loop body of src/app.py lines 207–216: one melody entry contributes
its note-on/note-off pair, or nothing when `pitch_to_midi` raises. -/
def perNoteEvents (note : NoteEvent) : List MidiEvent :=
  match pitch_to_midi note.pitch with
  | none => []
  | some midi_note =>
    let vel := max 0 (min 127 (note.velocity.getD 80))
    let start := pyIntMul note.start_beat tpb
    let dur := max 1 (pyIntMul note.duration_beats tpb)
    [⟨start, 1, 0x90, midi_note, vel⟩, ⟨start + dur, 0, 0x80, midi_note, 0⟩]

/-- Lines 202–218: sort the melody by start beat, emit each note's pair of
events, then sort all events by `(tick, priority)`.  Both Python sorts are
stable, as is `insertionSort`. -/
def scheduleEvents (melody : List NoteEvent) : List MidiEvent :=
  ((melody.insertionSort noteLe).flatMap perNoteEvents).insertionSort eventLe

/-- Function `_meta_tempo` (src/app.py lines 189–192): `FF 51 03` + 3-byte big-endian
`int(60_000_000 / bpm)`.  For `bpm ∈ [40, 200]` the float division followed
by `int()` truncation equals `Nat` floor division (the quotient is about
3·10^5–1.5·10^6, far below the 2^53 exactness bound, and the float error
cannot bridge the ≥ 1/200 gap to the next integer). -/
def _meta_tempo (bpm : Nat) : List Nat :=
  let us := 60000000 / bpm
  [0xFF, 0x51, 0x03, us / 65536 % 256, us / 256 % 256, us % 256]

/-- Python `bytes([status, p1, p2])`; the values built by the scheduler always lie
in `[0, 256)` (note numbers in [48, 72], velocities in [0, 127]), otherwise
Python `bytes()` would raise. -/
def eventBytes (e : MidiEvent) : List Nat :=
  [e.status, e.data1.toNat, e.data2.toNat]

/-- Lines 226–230: the delta-time/event loop with the running `current_tick`
cursor.  `none` models `_encode_varint` never returning on a negative delta
(see `spec_c10`). -/
def emitEvents : Int → List MidiEvent → Option (List Nat)
  | _, [] => some []
  | current_tick, e :: es =>
    let delta := e.tick - current_tick
    if delta < 0 then none
    else
      match emitEvents e.tick es with
      | none => none
      | some rest => some (_encode_varint delta.toNat ++ eventBytes e ++ rest)

/-- Track assembly, src/app.py lines 220–233: tempo meta, program change,
delta-timed events, end of track. -/
def build_track (doc : MusicalDocument) : Option (List Nat) :=
  match clamped_bpm doc.tempo_bpm with
  | none => none
  | some bpm =>
    match emitEvents 0 (scheduleEvents doc.melody) with
    | none => none
    | some evBytes =>
      some (_encode_varint 0 ++ _meta_tempo bpm.toNat
        ++ _encode_varint 0 ++ [0xC0, 0x00]
        ++ evBytes ++ [0x00, 0xFF, 0x2F, 0x00])

/-- Python `struct.pack(">I", n)`. -/
def pack32 (n : Nat) : List Nat :=
  [n / 16777216 % 256, n / 65536 % 256, n / 256 % 256, n % 256]

/-- Python `struct.pack(">H", n)`. -/
def pack16 (n : Nat) : List Nat := [n / 256 % 256, n % 256]

/-- Function `build_midi` (src/app.py lines 195–238): `MThd` header (length 6,
format 0, one track, 480 ticks per beat) followed by the `MTrk` chunk. -/
def build_midi (doc : MusicalDocument) : Option (List Nat) :=
  match build_track doc with
  | none => none
  | some track =>
    some ([0x4D, 0x54, 0x68, 0x64] ++ pack32 6 ++ pack16 0 ++ pack16 1 ++ pack16 480
      ++ [0x4D, 0x54, 0x72, 0x6B] ++ pack32 track.length ++ track)

/-- Big-endian decoding of a byte list (used to read back multi-byte
payloads such as the tempo's microseconds-per-beat). -/
def decodeBE (bs : List Nat) : Nat :=
  bs.foldl (fun acc b => acc * 256 + b) 0

/-- Every scheduled event is a note-on with priority 1 or a note-off with
priority 0 (velocity byte forced to 0 on note-off). -/
theorem scheduleEvents_mem_class (melody : List NoteEvent) (e : MidiEvent)
    (he : e ∈ scheduleEvents melody) :
    (e.status = 0x90 ∧ e.prio = 1) ∨ (e.status = 0x80 ∧ e.prio = 0 ∧ e.data2 = 0) := by
  unfold scheduleEvents at he
  rw [List.mem_insertionSort] at he
  rw [List.mem_flatMap] at he
  obtain ⟨note, _, hmem⟩ := he
  unfold perNoteEvents at hmem
  cases hp : pitch_to_midi note.pitch with
  | none => rw [hp] at hmem; simp at hmem
  | some midi_note =>
    rw [hp] at hmem
    simp only [List.mem_cons, List.mem_singleton, List.not_mem_nil, or_false] at hmem
    rcases hmem with h | h <;> subst h
    · exact Or.inl ⟨rfl, rfl⟩
    · exact Or.inr ⟨rfl, rfl, rfl⟩

/-- Claim C3: the scheduled event list is totally ordered by
`(absolute_tick, priority)` ascending, where a note-off (priority 0) sorts
strictly before any note-on (priority 1) at the same tick; for the melody of
two sequential non-overlapping notes on beats [0,1) and [1,2) with
`ticks_per_beat = 480` the order is note-on@0, note-off@480, note-on@480,
note-off@960. -/
theorem spec_c3 :
    (∀ melody : List NoteEvent, (scheduleEvents melody).Pairwise eventLe) ∧
    (∀ melody : List NoteEvent, ∀ e ∈ scheduleEvents melody,
      (e.status = 0x90 ∧ e.prio = 1) ∨ (e.status = 0x80 ∧ e.prio = 0 ∧ e.data2 = 0)) ∧
    scheduleEvents [⟨"C4", ⟨0, 0⟩, ⟨1, 0⟩, some 80⟩, ⟨"D4", ⟨1, 0⟩, ⟨1, 0⟩, some 80⟩]
      = [⟨0, 1, 0x90, 60, 80⟩, ⟨480, 0, 0x80, 60, 0⟩,
         ⟨480, 1, 0x90, 62, 80⟩, ⟨960, 0, 0x80, 62, 0⟩] := by
  refine ⟨?_, scheduleEvents_mem_class, by decide⟩
  intro melody
  exact List.sorted_insertionSort eventLe _

/-- Witness for C3's quantified membership part at the first scheduled event
of the two-note example. -/
theorem spec_c3_witness :
    ((⟨0, 1, 0x90, 60, 80⟩ : MidiEvent).status = 0x90 ∧
      (⟨0, 1, 0x90, 60, 80⟩ : MidiEvent).prio = 1) ∨
    ((⟨0, 1, 0x90, 60, 80⟩ : MidiEvent).status = 0x80 ∧
      (⟨0, 1, 0x90, 60, 80⟩ : MidiEvent).prio = 0 ∧
      (⟨0, 1, 0x90, 60, 80⟩ : MidiEvent).data2 = 0) :=
  spec_c3.2.1 [⟨"C4", ⟨0, 0⟩, ⟨1, 0⟩, some 80⟩, ⟨"D4", ⟨1, 0⟩, ⟨1, 0⟩, some 80⟩]
    ⟨0, 1, 0x90, 60, 80⟩ (by decide)

/-- Claim C4 counterexample: `pitch_to_midi("C6")` is 72, not 60 as the
claim states — the raw MIDI number 84 folds down a single octave to 72,
which is already inside [48, 72]. -/
theorem spec_c4_counterexample :
    pitch_to_midi "C6" = some 72 ∧ some (72 : Int) ≠ some (60 : Int) := by
  exact ⟨by decide, by decide⟩

/-- Claim C4 (amended): `pitch_to_midi` maps "C4" to 60, "C3" to 48,
"C5" to 72, and "C6" (raw MIDI 84) folds down by one octave to 72. -/
theorem spec_c4_amended :
    pitch_to_midi "C4" = some 60 ∧ pitch_to_midi "C3" = some 48 ∧
    pitch_to_midi "C5" = some 72 ∧ pitch_to_midi "C6" = some 72 := by
  refine ⟨by decide, by decide, by decide, by decide⟩

/-- Modelled from the spec: `round(start_beat * ticks_per_beat)` — an
integer `r` is a rounding-to-nearest of `x * tpb` (with `x = mant / 2^exp`)
exactly when `2 * |x.mant * tpb - r * 2^exp| ≤ 2^exp`.  Any rounding
convention (half-up, half-even, …) satisfies this. -/
def IsNearestInt (x : PyFloat) (tpb r : Int) : Prop :=
  -(2 ^ x.exp : Int) ≤ 2 * (x.mant * tpb - r * 2 ^ x.exp) ∧
  2 * (x.mant * tpb - r * 2 ^ x.exp) ≤ (2 ^ x.exp : Int)

/-- Claim C5 counterexample: at `start_beat = 1/512` (a float-exact value,
`start_beat * 480 = 15/16`) the code computes `start_tick = int(15/16) = 0`,
which is not a rounding to the nearest integer (that would be 1): tick
conversion truncates, it does not round. -/
theorem spec_c5_counterexample :
    pyIntMul ⟨1, 9⟩ tpb = 0 ∧
    ¬ IsNearestInt ⟨1, 9⟩ tpb (pyIntMul ⟨1, 9⟩ tpb) ∧
    perNoteEvents ⟨"C4", ⟨1, 9⟩, ⟨1, 0⟩, some 80⟩
      = [⟨0, 1, 0x90, 60, 80⟩, ⟨480, 0, 0x80, 60, 0⟩] := by
  refine ⟨by decide, ?_, by decide⟩
  intro hcon
  rw [IsNearestInt] at hcon
  revert hcon
  decide

/-- Claim C5 (amended): for every melody note that resolves to a valid
pitch, the scheduler emits a note-on at
`start_tick = int(start_beat * ticks_per_beat)` (truncation toward zero, not
rounding to nearest) and a note-off at `start_tick + duration_ticks` with
`duration_ticks = max(1, int(duration_beats * ticks_per_beat))`, so the
duration is coerced to at least one tick. -/
theorem spec_c5_amended (melody : List NoteEvent) (n : NoteEvent)
    (hmem : n ∈ melody) (m : Int) (hp : pitch_to_midi n.pitch = some m) :
    1 ≤ max 1 (pyIntMul n.duration_beats tpb) ∧
    (⟨pyIntMul n.start_beat tpb, 1, 0x90, m,
      max 0 (min 127 (n.velocity.getD 80))⟩ : MidiEvent) ∈ scheduleEvents melody ∧
    (⟨pyIntMul n.start_beat tpb + max 1 (pyIntMul n.duration_beats tpb), 0,
      0x80, m, 0⟩ : MidiEvent) ∈ scheduleEvents melody := by
  refine ⟨le_max_left _ _, ?_, ?_⟩ <;>
  · unfold scheduleEvents
    rw [List.mem_insertionSort, List.mem_flatMap]
    refine ⟨n, (List.mem_insertionSort noteLe).mpr hmem, ?_⟩
    unfold perNoteEvents
    rw [hp]
    simp

/-- Witness for C5 (amended) at a concrete one-note melody. -/
theorem spec_c5_amended_witness :
    1 ≤ max 1 (pyIntMul (⟨1, 0⟩ : PyFloat) tpb) ∧
    (⟨pyIntMul (⟨0, 0⟩ : PyFloat) tpb, 1, 0x90, 60,
      max 0 (min 127 ((some (80 : Int)).getD 80))⟩ : MidiEvent)
      ∈ scheduleEvents [⟨"C4", ⟨0, 0⟩, ⟨1, 0⟩, some 80⟩] ∧
    (⟨pyIntMul (⟨0, 0⟩ : PyFloat) tpb + max 1 (pyIntMul (⟨1, 0⟩ : PyFloat) tpb), 0,
      0x80, 60, 0⟩ : MidiEvent)
      ∈ scheduleEvents [⟨"C4", ⟨0, 0⟩, ⟨1, 0⟩, some 80⟩] :=
  spec_c5_amended [⟨"C4", ⟨0, 0⟩, ⟨1, 0⟩, some 80⟩] ⟨"C4", ⟨0, 0⟩, ⟨1, 0⟩, some 80⟩
    (by decide) 60 (by decide)

/-- Modelled from the spec: `round(60_000_000 / clamped_bpm)` — a natural
`r` is a rounding-to-nearest of `a / b` exactly when `2·|a − r·b| ≤ b`. -/
def IsNearestQuot (a b r : Nat) : Prop :=
  -(b : Int) ≤ 2 * ((a : Int) - (r : Int) * (b : Int)) ∧
  2 * ((a : Int) - (r : Int) * (b : Int)) ≤ (b : Int)

/-- Claim C6 counterexample: at the valid tempo 90 the encoded tempo payload
decodes to `int(60_000_000 / 90) = 666666`, which is not the rounding to
nearest (666667): the code truncates the microseconds-per-beat quotient. -/
theorem spec_c6_counterexample :
    clamped_bpm (TempoField.num 90) = some 90 ∧
    decodeBE ((_meta_tempo 90).drop 3) = 666666 ∧
    ¬ IsNearestQuot 60000000 90 666666 ∧
    IsNearestQuot 60000000 90 666667 := by
  refine ⟨by decide, by decide, ?_, ?_⟩
  · intro hcon
    rw [IsNearestQuot] at hcon
    revert hcon
    decide
  · rw [IsNearestQuot]
    decide

/-- Claim C6 (amended): the track begins with a zero-delta tempo meta event
whose 3-byte big-endian payload equals the truncated quotient
`int(60_000_000 / clamped_bpm)` (floor, not round-to-nearest); for
`tempo_bpm = 120` the payload decodes to 500000 (here the quotient is
exact, so flooring and rounding agree). -/
theorem spec_c6_amended :
    (∀ b : Nat, 40 ≤ b → b ≤ 200 → decodeBE ((_meta_tempo b).drop 3) = 60000000 / b) ∧
    (∀ (doc : MusicalDocument) (track : List Nat), build_track doc = some track →
      ∀ bpm : Int, clamped_bpm doc.tempo_bpm = some bpm →
        track.take 7 = 0x00 :: _meta_tempo bpm.toNat) ∧
    decodeBE ((_meta_tempo 120).drop 3) = 500000 := by
  refine ⟨?_, ?_, by decide⟩
  · intro b hb1 hb2
    have hus : 60000000 / b ≤ 1500000 := by
      calc 60000000 / b ≤ 60000000 / 40 := Nat.div_le_div_left hb1 (by omega)
        _ = 1500000 := by norm_num
    simp only [_meta_tempo, decodeBE, List.drop, List.foldl]
    generalize 60000000 / b = u at hus ⊢
    omega
  · intro doc track htrack bpm hbpm
    unfold build_track at htrack
    rw [hbpm] at htrack
    cases hev : emitEvents 0 (scheduleEvents doc.melody) with
    | none => rw [hev] at htrack; exact absurd htrack (by simp)
    | some evBytes =>
      rw [hev] at htrack
      simp only [Option.some.injEq] at htrack
      subst htrack
      have h0 : _encode_varint 0 = [0] := by decide
      rw [h0]
      simp [_meta_tempo]

/-- Witness for C6 (amended): the payload formula at the clamped tempo 90,
and the track prefix for a concrete document at tempo 120. -/
theorem spec_c6_amended_witness :
    decodeBE ((_meta_tempo 90).drop 3) = 60000000 / 90 ∧
    ([0, 255, 81, 3, 7, 161, 32, 0, 192, 0, 0, 144, 60, 80, 131, 96, 128, 60, 0,
      0, 255, 47, 0] : List Nat).take 7 = 0x00 :: _meta_tempo (120 : Int).toNat :=
  ⟨spec_c6_amended.1 90 (by decide) (by decide),
    spec_c6_amended.2.1 ⟨TempoField.num 120, [⟨"C4", ⟨0, 0⟩, ⟨1, 0⟩, some 80⟩]⟩
      [0, 255, 81, 3, 7, 161, 32, 0, 192, 0, 0, 144, 60, 80, 131, 96, 128, 60, 0,
        0, 255, 47, 0]
      (by decide) 120 (by decide)⟩

/-- Claim C7 counterexample: a present-but-unconvertible `tempo_bpm` makes
`int(...)` raise, so the encoder fails instead of falling back to 90. -/
theorem spec_c7_counterexample :
    clamped_bpm TempoField.invalid = none ∧
    build_midi ⟨TempoField.invalid, [⟨"C4", ⟨0, 0⟩, ⟨1, 0⟩, some 80⟩]⟩ = none := by
  exact ⟨by decide, by decide⟩

/-- Claim C7 (amended): the encode-time tempo is `tempo_bpm` clamped to
[40, 200]; a missing `tempo_bpm` defaults to 90; a present value that
`int()` cannot convert aborts the encoder (it does not default to 90). -/
theorem spec_c7_amended :
    (∀ (t : TempoField) (b : Int), clamped_bpm t = some b → 40 ≤ b ∧ b ≤ 200) ∧
    clamped_bpm TempoField.absent = some 90 ∧
    clamped_bpm TempoField.invalid = none ∧
    (∀ n : Int, clamped_bpm (TempoField.num n) = some (max 40 (min 200 n))) := by
  refine ⟨?_, by decide, by decide, fun n => rfl⟩
  intro t b h
  cases t with
  | absent =>
    simp [clamped_bpm, tempoInt] at h
    omega
  | num n =>
    simp [clamped_bpm, tempoInt] at h
    omega
  | invalid =>
    simp [clamped_bpm, tempoInt] at h

/-- Witness for C7 (amended): the clamp at the out-of-range tempo 300. -/
theorem spec_c7_amended_witness : (40 : Int) ≤ 200 ∧ (200 : Int) ≤ 200 :=
  spec_c7_amended.1 (TempoField.num 300) 200 (by decide)

/-! ### Document validator (src/app.py lines 29–30, 144–146) -/

/-- Python string comparison: lexicographic by code point (`sorted(missing)`
sorts alphabetically for these ASCII field names). -/
def strLeAux : List Char → List Char → Bool
  | [], _ => true
  | _ :: _, [] => false
  | a :: as, b :: bs =>
    if a.toNat < b.toNat then true
    else if b.toNat < a.toNat then false
    else strLeAux as bs

theorem strLeAux_total : ∀ (x y : List Char),
    strLeAux x y = true ∨ strLeAux y x = true := by
  intro x
  induction x with
  | nil => intro y; exact Or.inl rfl
  | cons a as ih =>
    intro y
    cases y with
    | nil => exact Or.inr rfl
    | cons b bs =>
      simp only [strLeAux]
      rcases Nat.lt_trichotomy a.toNat b.toNat with h | h | h
      · left; rw [if_pos h]
      · rcases ih bs with h' | h'
        · left; rw [if_neg (by omega), if_neg (by omega)]; exact h'
        · right; rw [if_neg (by omega), if_neg (by omega)]; exact h'
      · right; rw [if_pos h]

theorem strLeAux_trans : ∀ (x y z : List Char),
    strLeAux x y = true → strLeAux y z = true → strLeAux x z = true := by
  intro x
  induction x with
  | nil => intro y z _ _; rfl
  | cons a as ih =>
    intro y z hxy hyz
    cases y with
    | nil => simp [strLeAux] at hxy
    | cons b bs =>
      cases z with
      | nil => simp [strLeAux] at hyz
      | cons c cs =>
        simp only [strLeAux] at hxy hyz ⊢
        rcases Nat.lt_trichotomy a.toNat b.toNat with h1 | h1 | h1 <;>
          rcases Nat.lt_trichotomy b.toNat c.toNat with h2 | h2 | h2
        · rw [if_pos (show a.toNat < c.toNat by omega)]
        · rw [if_pos (show a.toNat < c.toNat by omega)]
        · rw [if_neg (by omega), if_pos (by omega)] at hyz
          exact absurd hyz (by simp)
        · rw [if_pos (show a.toNat < c.toNat by omega)]
        · rw [if_neg (by omega), if_neg (by omega)] at hxy hyz ⊢
          exact ih bs cs hxy hyz
        · rw [if_neg (by omega), if_pos (by omega)] at hyz
          exact absurd hyz (by simp)
        · rw [if_neg (by omega), if_pos (by omega)] at hxy
          exact absurd hxy (by simp)
        · rw [if_neg (by omega), if_pos (by omega)] at hxy
          exact absurd hxy (by simp)
        · rw [if_neg (by omega), if_pos (by omega)] at hxy
          exact absurd hxy (by simp)

/-- Python `<=` on strings. -/
def strLe (a b : String) : Prop := strLeAux a.data b.data = true

instance : DecidableRel strLe := fun a b =>
  inferInstanceAs (Decidable (strLeAux a.data b.data = true))

instance : IsTotal String strLe := ⟨fun a b => strLeAux_total a.data b.data⟩

instance : IsTrans String strLe := ⟨fun a b c => strLeAux_trans a.data b.data c.data⟩

/-- Source constant `REQUIRED_FIELDS` (src/app.py lines 29–30); a Python set, listed here in
source order (set semantics enter only through membership below). -/
def REQUIRED_FIELDS : List String :=
  ["title", "tempo_bpm", "key", "length_bars", "time_signature", "melody"]

/-- Python `sorted(REQUIRED_FIELDS - set(data.keys()))` (src/app.py lines 144–146):
the required fields not among the document's keys, sorted alphabetically.
Python's sort is stable; on the duplicate-free field set any stable sort
gives this result. -/
def missing_fields (keys : List String) : List String :=
  (REQUIRED_FIELDS.filter (fun f => !(keys.contains f))).insertionSort strLe

/-- Validation failure `raise ValueError(...)` with message
`"Faltan campos en el JSON: " + ", ".join(sorted(missing))`
when `missing` is nonempty; `none` when validation passes this check. -/
def schema_error (keys : List String) : Option String :=
  if missing_fields keys = [] then none
  else some ("Faltan campos en el JSON: " ++ String.intercalate ", " (missing_fields keys))

/-- Claim C8: validation of a document missing required top-level keys
reports the alphabetically sorted list of all missing keys — the reported
list is sorted, and contains exactly every missing required field (never
just the first); a document missing exactly `key` and `melody` fails
listing exactly "key, melody". -/
theorem spec_c8 :
    (∀ keys : List String, (missing_fields keys).Pairwise strLe) ∧
    (∀ (keys : List String) (f : String),
      f ∈ missing_fields keys ↔ (f ∈ REQUIRED_FIELDS ∧ ¬ f ∈ keys)) ∧
    missing_fields ["title", "tempo_bpm", "length_bars", "time_signature"]
      = ["key", "melody"] ∧
    schema_error ["title", "tempo_bpm", "length_bars", "time_signature"]
      = some "Faltan campos en el JSON: key, melody" := by
  refine ⟨?_, ?_, by decide, by decide⟩
  · intro keys
    exact List.sorted_insertionSort strLe _
  · intro keys f
    unfold missing_fields
    rw [List.mem_insertionSort, List.mem_filter]
    simp [List.contains, List.elem_iff]

/-- Claim C9: a note whose pitch string the grammar rejects is silently
dropped (it emits no events and the request is not aborted); the melody
consisting solely of the invalid-pitch note "H4" yields a track holding
only the tempo meta event, the program change and the end-of-track meta
event — zero note events. -/
theorem spec_c9 :
    (∀ n : NoteEvent, pitch_to_midi n.pitch = none → perNoteEvents n = []) ∧
    pitch_to_midi "H4" = none ∧
    scheduleEvents [⟨"H4", ⟨0, 0⟩, ⟨1, 0⟩, some 80⟩] = [] ∧
    build_track ⟨TempoField.num 120, [⟨"H4", ⟨0, 0⟩, ⟨1, 0⟩, some 80⟩]⟩
      = some ([0x00] ++ _meta_tempo 120 ++ ([0x00, 0xC0, 0x00] ++ [0x00, 0xFF, 0x2F, 0x00])) ∧
    build_midi ⟨TempoField.num 120, [⟨"H4", ⟨0, 0⟩, ⟨1, 0⟩, some 80⟩]⟩
      = some [77, 84, 104, 100, 0, 0, 0, 6, 0, 0, 0, 1, 1, 224,
              77, 84, 114, 107, 0, 0, 0, 14,
              0, 255, 81, 3, 7, 161, 32, 0, 192, 0, 0, 255, 47, 0] := by
  refine ⟨?_, by decide, by decide, by decide, by decide⟩
  intro n hp
  unfold perNoteEvents
  rw [hp]

/-- Witness for C9's quantified part at the concrete "H4" note. -/
theorem spec_c9_witness :
    perNoteEvents ⟨"H4", ⟨0, 0⟩, ⟨1, 0⟩, some 80⟩ = [] :=
  spec_c9.1 ⟨"H4", ⟨0, 0⟩, ⟨1, 0⟩, some 80⟩ (by decide)

/-! ### Claim C10: termination behaviour of `_encode_varint` and the
nonnegativity of every delta time `build_midi` passes to it. -/

/-- On a negative value the `while value:` loop never exits: `value / 128`
(the arithmetic shift `value >>= 7`) stays negative, so no amount of fuel
produces a result. -/
theorem _encode_varint_loopFuel_neg : ∀ (fuel : Nat) (v : Int) (buf : List Int),
    v < 0 → _encode_varint_loopFuel fuel v buf = none := by
  intro fuel
  induction fuel with
  | zero =>
    intro v buf hv
    simp only [_encode_varint_loopFuel]
    rw [if_neg (by omega)]
  | succ k ih =>
    intro v buf hv
    simp only [_encode_varint_loopFuel]
    rw [if_neg (by omega)]
    exact ih _ _ (by omega)

/-- With fuel dominating the number of base-128 digits, the loop returns,
and only ever appends to its buffer. -/
theorem _encode_varint_loopFuel_pos : ∀ (k : Nat) (v : Int) (buf : List Int),
    0 ≤ v → v < (128 : Int) ^ k →
    ∃ bs, _encode_varint_loopFuel k v buf = some bs ∧ buf.length ≤ bs.length := by
  intro k
  induction k with
  | zero =>
    intro v buf h0 hlt
    have hv : v = 0 := by simp at hlt; omega
    subst hv
    exact ⟨buf, by simp [_encode_varint_loopFuel], Nat.le_refl _⟩
  | succ k ih =>
    intro v buf h0 hlt
    by_cases hv : v = 0
    · subst hv
      exact ⟨buf, by simp [_encode_varint_loopFuel], Nat.le_refl _⟩
    · have h1 : 0 ≤ v / 128 := Int.ediv_nonneg h0 (by omega)
      have h2 : v / 128 < (128 : Int) ^ k := by
        rw [Int.ediv_lt_iff_lt_mul (by omega)]
        calc v < (128 : Int) ^ (k + 1) := hlt
          _ = (128 : Int) ^ k * 128 := by rw [pow_succ]
      obtain ⟨bs, hbs, hlen⟩ := ih (v / 128) (buf ++ [v % 128 + 128]) h1 h2
      refine ⟨bs, ?_, ?_⟩
      · simp only [_encode_varint_loopFuel]
        rw [if_neg hv]
        exact hbs
      · calc buf.length ≤ (buf ++ [v % 128 + 128]).length := by simp
          _ ≤ bs.length := hlen

/-- The scheduled events of a melody with nonnegative beat fields all carry
nonnegative absolute ticks. -/
theorem scheduleEvents_tick_nonneg (melody : List NoteEvent)
    (hm : ∀ note ∈ melody, 0 ≤ note.start_beat.mant) :
    ∀ e ∈ scheduleEvents melody, 0 ≤ e.tick := by
  intro e he
  unfold scheduleEvents at he
  rw [List.mem_insertionSort, List.mem_flatMap] at he
  obtain ⟨note, hnote, hmem⟩ := he
  have hstart : 0 ≤ pyIntMul note.start_beat tpb := by
    apply Int.tdiv_nonneg
    · exact mul_nonneg (hm note ((List.mem_insertionSort noteLe).mp hnote)) (by norm_num [tpb])
    · positivity
  unfold perNoteEvents at hmem
  cases hp : pitch_to_midi note.pitch with
  | none => rw [hp] at hmem; simp at hmem
  | some midi_note =>
    rw [hp] at hmem
    simp only [List.mem_cons, List.mem_singleton, List.not_mem_nil, or_false] at hmem
    rcases hmem with h | h <;> subst h
    · exact hstart
    · have : (1 : Int) ≤ max 1 (pyIntMul note.duration_beats tpb) := le_max_left _ _
      simp only
      omega

/-- The delta-time loop succeeds on any sorted event list whose ticks are at
least the starting cursor. -/
theorem emitEvents_total : ∀ (evs : List MidiEvent) (cur : Int),
    evs.Pairwise eventLe → (∀ e ∈ evs, cur ≤ e.tick) →
    ∃ bs, emitEvents cur evs = some bs := by
  intro evs
  induction evs with
  | nil => intro cur _ _; exact ⟨[], rfl⟩
  | cons e es ih =>
    intro cur hpair hcur
    have hdelta : ¬ (e.tick - cur < 0) := by
      have := hcur e (List.mem_cons_self e es)
      omega
    obtain ⟨hd, tl⟩ := List.pairwise_cons.mp hpair
    obtain ⟨bs, hbs⟩ := ih e.tick tl (fun f hf => by
      have := hd f hf
      unfold eventLe at this
      omega)
    refine ⟨_encode_varint (e.tick - cur).toNat ++ eventBytes e ++ bs, ?_⟩
    simp only [emitEvents]
    rw [if_neg hdelta, hbs]

/-- Claim C10: `_encode_varint` terminates with a nonempty byte sequence on
every nonnegative input but loops forever on every negative input; and under
the precondition that all melody beat fields are nonnegative, every
delta-time `build_midi` passes to `_encode_varint` is nonnegative (events
are sorted by ascending tick and the cursor starts at 0), so the
non-terminating branch is unreachable: the event-emission loop always
returns. -/
theorem spec_c10 :
    (∀ value : Int, value < 0 → ∀ fuel : Nat, _encode_varint_fuel fuel value = none) ∧
    (∀ value : Int, 0 ≤ value →
      ∃ (fuel : Nat) (bs : List Int), _encode_varint_fuel fuel value = some bs ∧ 1 ≤ bs.length) ∧
    (∀ n : Nat, 1 ≤ (_encode_varint n).length) ∧
    (∀ melody : List NoteEvent,
      (∀ note ∈ melody, 0 ≤ note.start_beat.mant ∧ 0 ≤ note.duration_beats.mant) →
      ∃ bs, emitEvents 0 (scheduleEvents melody) = some bs) := by
  refine ⟨?_, ?_, ?_, ?_⟩
  · intro v hv fuel
    unfold _encode_varint_fuel
    rw [_encode_varint_loopFuel_neg fuel (v / 128) _ (by omega)]
    rfl
  · intro v hv
    set t := (v / 128).toNat with ht
    have hcast : v / 128 = (t : Int) := by
      rw [ht, Int.toNat_of_nonneg (Int.ediv_nonneg hv (by omega))]
    have hbound : v / 128 < (128 : Int) ^ t := by
      rw [hcast]
      have h2 : t < 2 ^ t := Nat.lt_two_pow t
      have h128 : 2 ^ t ≤ 128 ^ t := Nat.pow_le_pow_left (by omega) t
      have : (t : Int) < ((128 ^ t : Nat) : Int) := by exact_mod_cast by omega
      simpa using this
    obtain ⟨bs, hbs, hlen⟩ :=
      _encode_varint_loopFuel_pos t (v / 128) [v % 128]
        (Int.ediv_nonneg hv (by omega)) hbound
    refine ⟨t, bs.reverse, ?_, ?_⟩
    · unfold _encode_varint_fuel
      rw [hbs]
      rfl
    · simpa using le_trans (by simp) hlen
  · intro n
    rw [_encode_varint_eq]
    simp
  · intro melody hm
    exact emitEvents_total (scheduleEvents melody) 0
      (List.sorted_insertionSort eventLe _)
      (scheduleEvents_tick_nonneg melody (fun note hn => (hm note hn).1))

/-- Witness for C10 at concrete inputs: fuel never suffices at −5, fuel
exists at 0, the encoding of 7 is nonempty, and a concrete one-note melody
with nonnegative beats encodes successfully. -/
theorem spec_c10_witness :
    _encode_varint_fuel 3 (-5) = none ∧
    (∃ (fuel : Nat) (bs : List Int), _encode_varint_fuel fuel 0 = some bs ∧ 1 ≤ bs.length) ∧
    1 ≤ (_encode_varint 7).length ∧
    (∃ bs, emitEvents 0 (scheduleEvents [⟨"C4", ⟨0, 0⟩, ⟨1, 0⟩, some 80⟩]) = some bs) :=
  ⟨spec_c10.1 (-5) (by decide) 3,
    spec_c10.2.1 0 (by decide),
    spec_c10.2.2.1 7,
    spec_c10.2.2.2 [⟨"C4", ⟨0, 0⟩, ⟨1, 0⟩, some 80⟩] (by decide)⟩
